import Mathlib

/-!
Verification of the reachability engine of `cityLink.c`: the edge-list
builder `createRList`, the fixed-point transitive-closure construction
`createTransClosure`, and the greedy path reconstruction `findPath`.

Edges are modelled as pairs of `Int` (the C code stores city indices in a
flat `int` array, two consecutive cells per pair).  The C `while` loops of
`createTransClosure` and `findPath` are modelled with an explicit fuel
parameter counting loop iterations; a result of `none` means the fuel ran
out before the loop finished (in particular, an infinite C loop corresponds
to the function returning `none` for every fuel).  Memory allocation is
assumed to succeed, so the C `NULL`-on-realloc-failure paths are not
modelled.
-/

/-- An ordered pair (from, to) of city indices, as stored in two
consecutive cells of the C arrays `R` / `RList`. -/
abbrev Edge := Int × Int

/-- The duplicate scan of `createTransClosure` (lines 281-284 of
`cityLink.c`) and the reachability scan of `findPath` (lines 310-313):
a linear scan of the pair list for the pair `(u, w)`. -/
def containsPair (R : List Edge) (u w : Int) : Bool :=
  R.any (fun e => e.1 == u && e.2 == w)

/-- The duplicate-check flag `alreadyExists` computed for the candidate
composition of `uv = (u,v)` with `yw = (y,w)`: the scan over the current
`R` runs only when `u != y && v != w` (line 280, "Don't check itself");
otherwise the flag stays `false`. -/
def dupChecked (acc : List Edge) (uv yw : Edge) : Bool :=
  if uv.1 ≠ yw.1 ∧ uv.2 ≠ yw.2 then containsPair acc uv.1 yw.2 else false

/-- The body of the inner `j` loop of `createTransClosure` (lines
272-299): when `y == v && u != w`, append the composed pair `(u, w)` to
the current list unless the duplicate check suppressed it. -/
def tryAdd (acc : List Edge) (uv yw : Edge) : List Edge :=
  if yw.1 = uv.2 ∧ uv.1 ≠ yw.2 then
    if dupChecked acc uv yw then acc else acc ++ [(uv.1, yw.2)]
  else acc

/-- The inner `j` loop of `createTransClosure`: `yw` ranges over the
pre-pass snapshot `init` (indices below `initialSize`), threading the
growing list `acc`. -/
def innerPass (init : List Edge) (acc : List Edge) (uv : Edge) : List Edge :=
  init.foldl (fun a2 yw => tryAdd a2 uv yw) acc

/-- The outer `i` loop of `createTransClosure`: `uv` ranges over the
pre-pass snapshot `init`. -/
def outerPass (init : List Edge) (acc : List Edge) (l : List Edge) : List Edge :=
  l.foldl (fun a uv => innerPass init a uv) acc

/-- One full pass of the `while(changed)` loop of `createTransClosure`
(lines 266-300): both index loops are bounded by the snapshot
`initialSize`, while reads of `R[k]` in the duplicate scan and appends go
to the current, growing list. -/
def onePass (R : List Edge) : List Edge := outerPass R R R

/-- `createTransClosure` (lines 261-303): repeat passes until a pass adds
no new pair (`changed` stays `false`, i.e. the length did not grow).
`fuel` bounds the number of passes; `none` means the fuel was exhausted
before the fixed point was reached. -/
def createTransClosure : Nat → List Edge → Option (List Edge)
  | 0, _ => none
  | fuel + 1, R =>
    if (onePass R).length = R.length then some (onePass R)
    else createTransClosure fuel (onePass R)

/-- The sequence of pairs written by the scan of `createRList` in
row-major order, ignoring the capacity of the destination buffer: every
cell equal to `1` contributes the pair `(row, col)`. -/
def rListWrites (A : Nat → Nat → Int) (N : Nat) : List Edge :=
  (List.range N).foldl
    (fun acc i =>
      (List.range N).foldl
        (fun acc2 j => if A i j = 1 then acc2 ++ [((i : Int), (j : Int))] else acc2)
        acc)
    []

/-- One write of a pair into a buffer holding `cap` pairs: the two int
stores of lines 241-244 are in bounds exactly when fewer than `cap`
pairs have been written; a write past the capacity is out of bounds
(undefined behaviour), modelled as `none`, and every later write on an
invalid buffer stays invalid. -/
def pushPair (cap : Nat) (acc : Option (List Edge)) (p : Edge) : Option (List Edge) :=
  acc.bind (fun l => if l.length < cap then some (l ++ [p]) else none)

/-- `createRList` (lines 223-259): allocates room for `2*(N*N-N)` ints —
capacity `N*N - N` pairs — then scans the `N`×`N` neighbour table `A` in
row-major order, writing the pair `(row, col)` for every cell equal to
`1` with no bounds check, and finally shrinks the buffer to the written
size.  A matrix with more than `N*N - N` one-cells overruns the buffer:
the result is `none` (undefined behaviour). -/
def createRList (A : Nat → Nat → Int) (N : Nat) : Option (List Edge) :=
  (List.range N).foldl
    (fun acc i =>
      (List.range N).foldl
        (fun acc2 j =>
          if A i j = 1 then pushPair (N * N - N) acc2 ((i : Int), (j : Int)) else acc2)
        acc)
    (some [])

/-- The pairs `(i, j)` with `A i j = 1` in row-major scan order, written
directly as a comprehension; the successful result of `createRList` is
proved equal to it. -/
def specRList (A : Nat → Nat → Int) (N : Nat) : List Edge :=
  (List.range N).flatMap (fun i =>
    ((List.range N).filter (fun j => A i j == 1)).map (fun (j : Nat) => ((i : Int), (j : Int))))

/-- The number of cells of the `N`×`N` table `A` equal to `1`. -/
def onesCount (A : Nat → Nat → Int) (N : Nat) : Nat :=
  ((List.range N).flatMap (fun i => (List.range N).map (fun j => A i j))).count 1

/-- Outcome of `findPath`: either the "No Path Exists!" report or a
printed path. -/
inductive FindResult where
  | noPath : FindResult
  | path : List Int → FindResult
  deriving DecidableEq

/-- State of the path-reconstruction walk of `findPath`: the `Path` array
built so far, the current value of the mutated `startCity` variable, and
the `pathComplete` flag. -/
structure WalkState where
  path : List Int
  cur : Int
  complete : Bool
  deriving DecidableEq

/-- The body of the inner `for` loop of `findPath` (lines 347-380) for a
single edge `e`: after the `break` on completion the remaining edges are
skipped; otherwise, when `e` leaves the current city for a city not yet in
`Path`, the current city is appended and the walk moves on, appending the
target and completing when it is reached. -/
def scanStep (targetCity : Int) (s : WalkState) (e : Edge) : WalkState :=
  if s.complete then s
  else if e.1 = s.cur ∧ e.2 ∉ s.path then
    if e.2 = targetCity then ⟨s.path ++ [s.cur, targetCity], e.2, true⟩
    else ⟨s.path ++ [s.cur], e.2, false⟩
  else s

/-- One full scan of the closure list by the inner `for` loop of
`findPath`. -/
def fullScan (R : List Edge) (targetCity : Int) (s : WalkState) : WalkState :=
  R.foldl (scanStep targetCity) s

/-- The `while(!pathComplete)` loop of `findPath` (lines 346-381): repeat
full scans until the path is complete.  `fuel` bounds the number of
iterations; `none` means the fuel was exhausted with the path still
incomplete. -/
def walkLoop (R : List Edge) (targetCity : Int) : Nat → WalkState → Option (List Int)
  | 0, _ => none
  | fuel + 1, s =>
    if s.complete then some s.path
    else walkLoop R targetCity fuel (fullScan R targetCity s)

/-- `findPath` (lines 305-394): scan for the pair `(startCity,
targetCity)` and report "No Path Exists!" if absent; otherwise take the
first edge leaving `startCity` (lines 320-345), finishing immediately on a
direct connection, and run the reconstruction loop.  `fuel` bounds the
`while` loop; `none` means it did not finish within the fuel. -/
def findPath (fuel : Nat) (R : List Edge) (startCity targetCity : Int) : Option FindResult :=
  if containsPair R startCity targetCity then
    match R.find? (fun e => e.1 == startCity) with
    | some e =>
      if e.2 = targetCity then some (FindResult.path [startCity, targetCity])
      else (walkLoop R targetCity fuel ⟨[startCity], e.2, false⟩).map FindResult.path
    | none => (walkLoop R targetCity fuel ⟨[], startCity, false⟩).map FindResult.path
  else some FindResult.noPath

/-- The list `R` contains a pair of (not necessarily distinct) edges
`(u,v)`, `(y,w)` that satisfy the composition guard `y == v && u != w`
while also satisfying `u == y` or `v == w`, so that the duplicate check is
skipped and the pass appends `(u, w)` unconditionally. -/
def BadPair (R : List Edge) : Prop :=
  ∃ u v y w : Int, (u, v) ∈ R ∧ (y, w) ∈ R ∧ y = v ∧ u ≠ w ∧ (u = y ∨ v = w)

/-- No edge of `R` is a self-loop. -/
def noSelfLoop (R : List Edge) : Prop := ∀ e ∈ R, e.1 ≠ e.2

/-- Consecutive path nodes are joined by an edge of `R`. -/
def relEdge (R : List Edge) (a b : Int) : Prop := (a, b) ∈ R

/-- Invariant of an incomplete walk state starting at `s`: the `Path`
array followed by the current city starts at `s`, is chained by edges of
`R`, and repeats no city. -/
def goodRun (R : List Edge) (s : Int) (st : WalkState) : Prop :=
  st.path.head? = some s ∧ List.Chain' (relEdge R) (st.path ++ [st.cur]) ∧
    (st.path ++ [st.cur]).Nodup

/-- Invariant of a completed walk state: the `Path` array starts at `s`,
ends at `t`, is chained by edges of `R`, and repeats no city. -/
def goodDone (R : List Edge) (s t : Int) (st : WalkState) : Prop :=
  st.path.head? = some s ∧ List.Chain' (relEdge R) st.path ∧ st.path.Nodup ∧
    st.path.getLast? = some t

/-- Walk invariant, by completion flag. -/
def goodState (R : List Edge) (s t : Int) (st : WalkState) : Prop :=
  if st.complete then goodDone R s t st else goodRun R s st

/-- The duplicate scan finds `(u, w)` exactly when it is in the list. -/
theorem containsPair_iff (R : List Edge) (u w : Int) :
    containsPair R u w = true ↔ (u, w) ∈ R := by
  unfold containsPair
  simp only [List.any_eq_true, Bool.and_eq_true, beq_iff_eq]
  constructor
  · rintro ⟨⟨a, b⟩, he, h1, h2⟩
    subst h1; subst h2; exact he
  · intro h
    exact ⟨(u, w), h, rfl, rfl⟩

/-- `tryAdd` only appends, and any appended pair is not a self-pair. -/
theorem tryAdd_append (acc : List Edge) (uv yw : Edge) :
    ∃ T : List Edge, tryAdd acc uv yw = acc ++ T ∧ ∀ m ∈ T, m.1 ≠ m.2 := by
  unfold tryAdd
  split
  · rename_i hg
    split
    · exact ⟨[], by simp⟩
    · refine ⟨[(uv.1, yw.2)], rfl, ?_⟩
      intro m hm
      simp only [List.mem_singleton] at hm
      subst hm
      exact hg.2
  · exact ⟨[], by simp⟩

/-- Membership is preserved by `tryAdd`. -/
theorem tryAdd_mem (acc : List Edge) (uv yw m : Edge) (h : m ∈ acc) :
    m ∈ tryAdd acc uv yw := by
  obtain ⟨T, hT, -⟩ := tryAdd_append acc uv yw
  rw [hT]
  exact List.mem_append_left _ h

/-- `innerPass` only appends, and any appended pair is not a self-pair. -/
theorem innerPass_append (uv : Edge) :
    ∀ (init acc : List Edge),
      ∃ T : List Edge, innerPass init acc uv = acc ++ T ∧ ∀ m ∈ T, m.1 ≠ m.2 := by
  intro init
  induction init with
  | nil => intro acc; exact ⟨[], by simp [innerPass], by simp⟩
  | cons yw rest ih =>
    intro acc
    obtain ⟨T1, h1, h1m⟩ := tryAdd_append acc uv yw
    obtain ⟨T2, h2, h2m⟩ := ih (tryAdd acc uv yw)
    refine ⟨T1 ++ T2, ?_, ?_⟩
    · show innerPass (yw :: rest) acc uv = acc ++ (T1 ++ T2)
      unfold innerPass at h2 ⊢
      rw [List.foldl_cons, h2, h1, List.append_assoc]
    · intro m hm
      rcases List.mem_append.mp hm with h | h
      · exact h1m m h
      · exact h2m m h

/-- Membership is preserved by `innerPass`. -/
theorem innerPass_mem (init acc : List Edge) (uv m : Edge) (h : m ∈ acc) :
    m ∈ innerPass init acc uv := by
  obtain ⟨T, hT, -⟩ := innerPass_append uv init acc
  rw [hT]
  exact List.mem_append_left _ h

/-- `outerPass` only appends, and any appended pair is not a self-pair. -/
theorem outerPass_append (init : List Edge) :
    ∀ (l acc : List Edge),
      ∃ T : List Edge, outerPass init acc l = acc ++ T ∧ ∀ m ∈ T, m.1 ≠ m.2 := by
  intro l
  induction l with
  | nil => intro acc; exact ⟨[], by simp [outerPass], by simp⟩
  | cons uv rest ih =>
    intro acc
    obtain ⟨T1, h1, h1m⟩ := innerPass_append uv init acc
    obtain ⟨T2, h2, h2m⟩ := ih (innerPass init acc uv)
    refine ⟨T1 ++ T2, ?_, ?_⟩
    · show outerPass init acc (uv :: rest) = acc ++ (T1 ++ T2)
      unfold outerPass at h2 ⊢
      rw [List.foldl_cons, h2, h1, List.append_assoc]
    · intro m hm
      rcases List.mem_append.mp hm with h | h
      · exact h1m m h
      · exact h2m m h

/-- Membership is preserved by `outerPass`. -/
theorem outerPass_mem (init l acc : List Edge) (m : Edge) (h : m ∈ acc) :
    m ∈ outerPass init acc l := by
  obtain ⟨T, hT, -⟩ := outerPass_append init l acc
  rw [hT]
  exact List.mem_append_left _ h

/-- `onePass` only appends, and any appended pair is not a self-pair. -/
theorem onePass_append (R : List Edge) :
    ∃ T : List Edge, onePass R = R ++ T ∧ ∀ m ∈ T, m.1 ≠ m.2 :=
  outerPass_append R R R

/-- Membership is preserved by `onePass`. -/
theorem onePass_mem (R : List Edge) (m : Edge) (h : m ∈ R) : m ∈ onePass R :=
  outerPass_mem R R R m h

/-- A pass that did not grow the list left it unchanged. -/
theorem onePass_eq_of_length (R : List Edge) (h : (onePass R).length = R.length) :
    onePass R = R := by
  obtain ⟨T, hT, -⟩ := onePass_append R
  rw [hT] at h ⊢
  rw [List.length_append] at h
  have : T.length = 0 := by omega
  rw [List.length_eq_zero] at this
  rw [this, List.append_nil]

/-- If the composition guard `y == v && u != w` holds, the composed pair
`(u, w)` is in the list after `tryAdd`: either the duplicate scan found it
already present, or it was just appended. -/
theorem tryAdd_mem_comp (acc : List Edge) (uv yw : Edge)
    (hyv : yw.1 = uv.2) (huw : uv.1 ≠ yw.2) :
    (uv.1, yw.2) ∈ tryAdd acc uv yw := by
  unfold tryAdd
  rw [if_pos ⟨hyv, huw⟩]
  split
  · rename_i hdup
    unfold dupChecked at hdup
    split at hdup
    · exact (containsPair_iff acc uv.1 yw.2).mp hdup
    · exact absurd hdup (by simp)
  · exact List.mem_append_right _ (by simp)

/-- After the inner loop over a snapshot containing `yw`, the pair
composed from `uv` and `yw` is in the list whenever the guard holds. -/
theorem innerPass_mem_comp (uv yw : Edge) (hyv : yw.1 = uv.2) (huw : uv.1 ≠ yw.2) :
    ∀ (init acc : List Edge), yw ∈ init → (uv.1, yw.2) ∈ innerPass init acc uv := by
  intro init
  induction init with
  | nil => intro acc h; exact absurd h (List.not_mem_nil yw)
  | cons e rest ih =>
    intro acc h
    rcases List.mem_cons.mp h with h | h
    · subst h
      show (uv.1, yw.2) ∈ innerPass (yw :: rest) acc uv
      unfold innerPass
      rw [List.foldl_cons]
      exact innerPass_mem rest (tryAdd acc uv yw) uv _ (tryAdd_mem_comp acc uv yw hyv huw)
    · show (uv.1, yw.2) ∈ innerPass (e :: rest) acc uv
      unfold innerPass
      rw [List.foldl_cons]
      exact ih (tryAdd acc uv e) h

/-- After the outer loop over a snapshot containing `uv`, with the inner
snapshot containing `yw`, the composed pair is in the list whenever the
guard holds. -/
theorem outerPass_mem_comp (init : List Edge) (uv yw : Edge)
    (hyw : yw ∈ init) (hyv : yw.1 = uv.2) (huw : uv.1 ≠ yw.2) :
    ∀ (l acc : List Edge), uv ∈ l → (uv.1, yw.2) ∈ outerPass init acc l := by
  intro l
  induction l with
  | nil => intro acc h; exact absurd h (List.not_mem_nil uv)
  | cons e rest ih =>
    intro acc h
    rcases List.mem_cons.mp h with h | h
    · subst h
      show (uv.1, yw.2) ∈ outerPass init acc (uv :: rest)
      unfold outerPass
      rw [List.foldl_cons]
      exact outerPass_mem init rest _ _ (innerPass_mem_comp uv yw hyv huw init acc hyw)
    · show (uv.1, yw.2) ∈ outerPass init acc (e :: rest)
      unfold outerPass
      rw [List.foldl_cons]
      exact ih (innerPass init acc e) h

/-- After one pass, every guarded composition of two pre-pass edges is
present. -/
theorem onePass_mem_comp (R : List Edge) (u v y w : Int)
    (h1 : (u, v) ∈ R) (h2 : (y, w) ∈ R) (hyv : y = v) (huw : u ≠ w) :
    (u, w) ∈ onePass R :=
  outerPass_mem_comp R (u, v) (y, w) h2 hyv huw R R h1

/-- A successful run of `createTransClosure` returns a fixed point of
`onePass` that extends the input by non-self pairs only. -/
theorem createTransClosure_some (fuel : Nat) :
    ∀ (R out : List Edge), createTransClosure fuel R = some out →
      onePass out = out ∧ ∃ T : List Edge, out = R ++ T ∧ ∀ m ∈ T, m.1 ≠ m.2 := by
  induction fuel with
  | zero => intro R out h; exact absurd h (by simp [createTransClosure])
  | succ fuel ih =>
    intro R out h
    unfold createTransClosure at h
    split at h
    · rename_i hlen
      have hfix := onePass_eq_of_length R hlen
      have hout : out = R := by
        rw [hfix] at h
        exact (Option.some.injEq _ _ ▸ h).symm
      subst hout
      exact ⟨hfix, [], by simp, by simp⟩
    · obtain ⟨hfix, T2, hT2, hT2m⟩ := ih (onePass R) out h
      obtain ⟨T1, hT1, hT1m⟩ := onePass_append R
      refine ⟨hfix, T1 ++ T2, ?_, ?_⟩
      · rw [hT2, hT1, List.append_assoc]
      · intro m hm
        rcases List.mem_append.mp hm with hm | hm
        · exact hT1m m hm
        · exact hT2m m hm

/-- When the guard holds but the duplicate check is skipped
(`u == y || v == w`), `tryAdd` appends unconditionally. -/
theorem tryAdd_skip_append (acc : List Edge) (uv yw : Edge)
    (hyv : yw.1 = uv.2) (huw : uv.1 ≠ yw.2) (hskip : uv.1 = yw.1 ∨ uv.2 = yw.2) :
    tryAdd acc uv yw = acc ++ [(uv.1, yw.2)] := by
  unfold tryAdd
  rw [if_pos ⟨hyv, huw⟩]
  have hd : dupChecked acc uv yw = false := by
    unfold dupChecked
    rw [if_neg]
    intro ⟨ha, hb⟩
    rcases hskip with h | h
    · exact ha h
    · exact hb h
  rw [hd]
  simp

/-- `tryAdd` never shrinks the list. -/
theorem tryAdd_length_le (acc : List Edge) (uv yw : Edge) :
    acc.length ≤ (tryAdd acc uv yw).length := by
  obtain ⟨T, hT, -⟩ := tryAdd_append acc uv yw
  rw [hT, List.length_append]
  omega

/-- `innerPass` never shrinks the list. -/
theorem innerPass_length_le (init acc : List Edge) (uv : Edge) :
    acc.length ≤ (innerPass init acc uv).length := by
  obtain ⟨T, hT, -⟩ := innerPass_append uv init acc
  rw [hT, List.length_append]
  omega

/-- `outerPass` never shrinks the list. -/
theorem outerPass_length_le (init l acc : List Edge) :
    acc.length ≤ (outerPass init acc l).length := by
  obtain ⟨T, hT, -⟩ := outerPass_append init l acc
  rw [hT, List.length_append]
  omega

/-- If the inner snapshot holds an edge `yw` composing with `uv` under a
skipped duplicate check, the inner loop strictly grows the list. -/
theorem innerPass_length_lt (uv yw : Edge)
    (hyv : yw.1 = uv.2) (huw : uv.1 ≠ yw.2) (hskip : uv.1 = yw.1 ∨ uv.2 = yw.2) :
    ∀ (init acc : List Edge), yw ∈ init → acc.length < (innerPass init acc uv).length := by
  intro init
  induction init with
  | nil => intro acc h; exact absurd h (List.not_mem_nil yw)
  | cons e rest ih =>
    intro acc h
    rcases List.mem_cons.mp h with h | h
    · subst h
      show acc.length < (innerPass (yw :: rest) acc uv).length
      unfold innerPass
      rw [List.foldl_cons]
      have h1 : acc.length < (tryAdd acc uv yw).length := by
        rw [tryAdd_skip_append acc uv yw hyv huw hskip, List.length_append]
        simp
      exact lt_of_lt_of_le h1 (innerPass_length_le rest _ uv)
    · show acc.length < (innerPass (e :: rest) acc uv).length
      unfold innerPass
      rw [List.foldl_cons]
      exact lt_of_le_of_lt (tryAdd_length_le acc uv e) (ih (tryAdd acc uv e) h)

/-- Same growth through the outer loop. -/
theorem outerPass_length_lt (init : List Edge) (uv yw : Edge)
    (hyw : yw ∈ init) (hyv : yw.1 = uv.2) (huw : uv.1 ≠ yw.2)
    (hskip : uv.1 = yw.1 ∨ uv.2 = yw.2) :
    ∀ (l acc : List Edge), uv ∈ l → acc.length < (outerPass init acc l).length := by
  intro l
  induction l with
  | nil => intro acc h; exact absurd h (List.not_mem_nil uv)
  | cons e rest ih =>
    intro acc h
    rcases List.mem_cons.mp h with h | h
    · subst h
      show acc.length < (outerPass init acc (uv :: rest)).length
      unfold outerPass
      rw [List.foldl_cons]
      exact lt_of_lt_of_le (innerPass_length_lt uv yw hyv huw hskip init acc hyw)
        (outerPass_length_le init rest _)
    · show acc.length < (outerPass init acc (e :: rest)).length
      unfold outerPass
      rw [List.foldl_cons]
      exact lt_of_le_of_lt (innerPass_length_le init acc e) (ih (innerPass init acc e) h)

/-- A pass over a list with a skipped-duplicate-check composition
strictly grows the list. -/
theorem onePass_grows_of_bad (R : List Edge) (h : BadPair R) :
    R.length < (onePass R).length := by
  obtain ⟨u, v, y, w, h1, h2, hyv, huw, hskip⟩ := h
  exact outerPass_length_lt R (u, v) (y, w) h2 hyv huw hskip R R h1

/-- The skipped-duplicate-check pattern persists across passes. -/
theorem badPair_onePass (R : List Edge) (h : BadPair R) : BadPair (onePass R) := by
  obtain ⟨u, v, y, w, h1, h2, hyv, huw, hskip⟩ := h
  exact ⟨u, v, y, w, onePass_mem R _ h1, onePass_mem R _ h2, hyv, huw, hskip⟩

/-- On a list with a skipped-duplicate-check composition, the fixed-point
loop never stops: every pass grows the list, for any amount of fuel. -/
theorem createTransClosure_none_of_bad :
    ∀ (fuel : Nat) (R : List Edge), BadPair R → createTransClosure fuel R = none := by
  intro fuel
  induction fuel with
  | zero => intro R _; rfl
  | succ fuel ih =>
    intro R h
    unfold createTransClosure
    rw [if_neg]
    · exact ih (onePass R) (badPair_onePass R h)
    · have := onePass_grows_of_bad R h
      omega

/-- In the absence of the skipped-check pattern among the snapshot edges,
`tryAdd` preserves duplicate-freedom: an appended pair passed the full
duplicate scan. -/
theorem tryAdd_nodup (R acc : List Edge) (uv yw : Edge)
    (hbad : ¬ BadPair R) (h1 : uv ∈ R) (h2 : yw ∈ R) (hnd : acc.Nodup) :
    (tryAdd acc uv yw).Nodup := by
  unfold tryAdd
  split
  · rename_i hg
    split
    · exact hnd
    · rename_i hdup
      have hrun : uv.1 ≠ yw.1 ∧ uv.2 ≠ yw.2 := by
        by_contra hc
        exact hbad ⟨uv.1, uv.2, yw.1, yw.2, h1, h2, hg.1, hg.2, by tauto⟩
      have hnotin : (uv.1, yw.2) ∉ acc := by
        intro hin
        unfold dupChecked at hdup
        rw [if_pos hrun] at hdup
        rw [(containsPair_iff acc uv.1 yw.2).mpr hin] at hdup
        exact hdup rfl
      rw [List.nodup_append]
      exact ⟨hnd, List.nodup_singleton _, by simpa using hnotin⟩
  · exact hnd

/-- `innerPass` preserves duplicate-freedom when the snapshot has no
skipped-check composition. -/
theorem innerPass_nodup (R : List Edge) (hbad : ¬ BadPair R) (uv : Edge) (h1 : uv ∈ R) :
    ∀ (l acc : List Edge), (∀ e ∈ l, e ∈ R) → acc.Nodup → (innerPass l acc uv).Nodup := by
  intro l
  induction l with
  | nil => intro acc _ hnd; simpa [innerPass] using hnd
  | cons yw rest ih =>
    intro acc hsub hnd
    show ((innerPass (yw :: rest) acc uv)).Nodup
    unfold innerPass
    rw [List.foldl_cons]
    exact ih (tryAdd acc uv yw)
      (fun e he => hsub e (List.mem_cons_of_mem yw he))
      (tryAdd_nodup R acc uv yw hbad h1 (hsub yw (List.mem_cons_self yw rest)) hnd)

/-- `outerPass` preserves duplicate-freedom when the snapshot has no
skipped-check composition. -/
theorem outerPass_nodup (R init : List Edge) (hbad : ¬ BadPair R)
    (hinit : ∀ e ∈ init, e ∈ R) :
    ∀ (l acc : List Edge), (∀ e ∈ l, e ∈ R) → acc.Nodup → (outerPass init acc l).Nodup := by
  intro l
  induction l with
  | nil => intro acc _ hnd; simpa [outerPass] using hnd
  | cons uv rest ih =>
    intro acc hsub hnd
    show (outerPass init acc (uv :: rest)).Nodup
    unfold outerPass
    rw [List.foldl_cons]
    exact ih (innerPass init acc uv)
      (fun e he => hsub e (List.mem_cons_of_mem uv he))
      (innerPass_nodup R hbad uv (hsub uv (List.mem_cons_self uv rest)) init acc hinit hnd)

/-- One pass preserves duplicate-freedom when the pre-pass list has no
skipped-check composition. -/
theorem onePass_nodup (R : List Edge) (hbad : ¬ BadPair R) (hnd : R.Nodup) :
    (onePass R).Nodup :=
  outerPass_nodup R R hbad (fun _ he => he) R R (fun _ he => he) hnd

/-- C1 (counterexample): on the two-cycle {(0,1),(1,0)} the fixed-point
loop terminates at once and returns the input itself, which contains
(0,1) and (1,0) but not the composed pair (0,0): the returned set is not
transitively closed. -/
theorem createTransClosure_two_cycle_not_transitive :
    createTransClosure 1 [((0:Int),(1:Int)), ((1:Int),(0:Int))] =
      some [((0:Int),(1:Int)), ((1:Int),(0:Int))] ∧
    ((0:Int),(1:Int)) ∈ [((0:Int),(1:Int)), ((1:Int),(0:Int))] ∧
    ((1:Int),(0:Int)) ∈ [((0:Int),(1:Int)), ((1:Int),(0:Int))] ∧
    ((0:Int),(0:Int)) ∉ [((0:Int),(1:Int)), ((1:Int),(0:Int))] := by decide

/-- C1 (amended): for every edge list on which `createTransClosure`
terminates successfully, the returned set is transitively closed on
distinct endpoints: if (a,b) and (b,c) are in the returned set and a ≠ c,
then (a,c) is in the returned set.  (The guard `u != w` of line 279
suppresses exactly the self-pair compositions.) -/
theorem createTransClosure_transitive_of_ne (fuel : Nat) (E out : List Edge)
    (a b c : Int) (hrun : createTransClosure fuel E = some out) (hac : a ≠ c)
    (hab : (a, b) ∈ out) (hbc : (b, c) ∈ out) : (a, c) ∈ out := by
  obtain ⟨hfix, -⟩ := createTransClosure_some fuel E out hrun
  have h := onePass_mem_comp out a b b c hab hbc rfl hac
  rwa [hfix] at h

/-- Witness for C1 (amended) at the concrete input [(0,1),(1,2)]. -/
theorem createTransClosure_transitive_of_ne_witness :
    ((0:Int),(2:Int)) ∈ [((0:Int),(1:Int)), ((1:Int),(2:Int)), ((0:Int),(2:Int))] :=
  createTransClosure_transitive_of_ne 2 [((0:Int),(1:Int)), ((1:Int),(2:Int))]
    [((0:Int),(1:Int)), ((1:Int),(2:Int)), ((0:Int),(2:Int))] 0 1 2
    (by decide) (by decide) (by decide) (by decide)

/-- C2: on the input [(0,0),(0,1)] — a self-loop plus an outgoing edge —
`createTransClosure` never reaches a fixed point: the composition of
(0,0) with (0,1) satisfies the guard with `u == y`, so the duplicate
check of lines 280-285 is skipped and a duplicate copy of (0,1) is
appended on every pass, for any amount of fuel. -/
theorem createTransClosure_diverges_on_self_loop (fuel : Nat) :
    createTransClosure fuel [((0:Int),(0:Int)), ((0:Int),(1:Int))] = none :=
  createTransClosure_none_of_bad fuel _
    ⟨0, 0, 0, 1, by decide, by decide, rfl, by decide, Or.inl rfl⟩

/-- C3: for every duplicate-free input edge list on which
`createTransClosure` terminates successfully, the returned set contains
no repeated (from,to) pair: termination implies every append went through
the full duplicate scan. -/
theorem createTransClosure_nodup :
    ∀ (fuel : Nat) (E out : List Edge), E.Nodup →
      createTransClosure fuel E = some out → out.Nodup := by
  intro fuel
  induction fuel with
  | zero => intro E out _ h; exact absurd h (by simp [createTransClosure])
  | succ fuel ih =>
    intro E out hnd h
    by_cases hbad : BadPair E
    · rw [createTransClosure_none_of_bad (fuel + 1) E hbad] at h
      exact absurd h (by simp)
    · unfold createTransClosure at h
      split at h
      · have hout : out = onePass E := by
          exact ((Option.some.injEq _ _).mp h).symm
        rw [hout]
        exact onePass_nodup E hbad hnd
      · exact ih (onePass E) out (onePass_nodup E hbad hnd) h

/-- Witness for C3 at the concrete input [(0,1),(1,2)]. -/
theorem createTransClosure_nodup_witness :
    ([((0:Int),(1:Int)), ((1:Int),(2:Int)), ((0:Int),(2:Int))] : List Edge).Nodup :=
  createTransClosure_nodup 2 [((0:Int),(1:Int)), ((1:Int),(2:Int))]
    [((0:Int),(1:Int)), ((1:Int),(2:Int)), ((0:Int),(2:Int))] (by decide) (by decide)

/-- C4 (counterexample): in a pass over [(0,1),(1,0)] the pre-pass edges
(u,v) = (0,1) and (y,w) = (1,0) satisfy v == y, (u,w) = (0,0) is not
present anywhere in R, and the pair is not degenerate (u ≠ y), yet
(0,0) is not appended: the additional guard `u != w` of line 279
suppresses the append, contradicting "no other condition suppresses the
append". -/
theorem onePass_suppresses_reverse_composition :
    ((0:Int),(1:Int)) ∈ [((0:Int),(1:Int)), ((1:Int),(0:Int))] ∧
    ((1:Int),(0:Int)) ∈ [((0:Int),(1:Int)), ((1:Int),(0:Int))] ∧
    ((0:Int),(0:Int)) ∉ [((0:Int),(1:Int)), ((1:Int),(0:Int))] ∧
    ¬ ((0:Int) = (1:Int) ∧ (1:Int) = (0:Int)) ∧
    ((0:Int),(0:Int)) ∉ onePass [((0:Int),(1:Int)), ((1:Int),(0:Int))] := by decide

/-- C4 (amended): within a pass, for pre-pass edges (u,v) and (y,w) with
v == y, the derived pair (u,w) is present in the post-pass list iff
u ≠ w or (u,w) was already present: the append is additionally suppressed
when u == w, while the duplicate check (a full linear scan of the current
R) runs only when u ≠ y and v ≠ w — when it is skipped a duplicate copy
may be appended, which membership does not distinguish. -/
theorem onePass_comp_mem_iff (R : List Edge) (u v y w : Int)
    (h1 : (u, v) ∈ R) (h2 : (y, w) ∈ R) (hvy : v = y) :
    (u, w) ∈ onePass R ↔ (u ≠ w ∨ (u, w) ∈ R) := by
  constructor
  · intro hm
    by_cases huw : u = w
    · subst huw
      obtain ⟨T, hT, hTm⟩ := onePass_append R
      rw [hT] at hm
      rcases List.mem_append.mp hm with h | h
      · exact Or.inr h
      · exact absurd rfl (hTm _ h)
    · exact Or.inl huw
  · rintro (huw | hin)
    · exact onePass_mem_comp R u v y w h1 h2 hvy.symm huw
    · exact onePass_mem R _ hin

/-- Witness for C4 (amended) at the concrete input [(0,1),(1,2)]. -/
theorem onePass_comp_mem_iff_witness :
    ((0:Int),(2:Int)) ∈ onePass [((0:Int),(1:Int)), ((1:Int),(2:Int))] :=
  (onePass_comp_mem_iff [((0:Int),(1:Int)), ((1:Int),(2:Int))] 0 1 1 2
    (by decide) (by decide) rfl).mpr (Or.inl (by decide))

/-- C8: for every input edge list on which `createTransClosure`
terminates successfully, every input pair is present in the returned set:
the construction only ever appends. -/
theorem createTransClosure_superset (fuel : Nat) (E out : List Edge)
    (h : createTransClosure fuel E = some out) : ∀ e ∈ E, e ∈ out := by
  obtain ⟨-, T, hT, -⟩ := createTransClosure_some fuel E out h
  intro e he
  rw [hT]
  exact List.mem_append_left _ he

/-- Witness for C8 at the concrete input [(0,1),(1,2)]. -/
theorem createTransClosure_superset_witness :
    ((0:Int),(1:Int)) ∈ [((0:Int),(1:Int)), ((1:Int),(2:Int)), ((0:Int),(2:Int))] :=
  createTransClosure_superset 2 [((0:Int),(1:Int)), ((1:Int),(2:Int))]
    [((0:Int),(1:Int)), ((1:Int),(2:Int)), ((0:Int),(2:Int))] (by decide)
    ((0:Int),(1:Int)) (by decide)

/-- C10: every pair appended by `createTransClosure` has from ≠ to (the
guard `u != w` of line 279), so a self-pair (a,a) is in the returned set
iff it was already in the input. -/
theorem createTransClosure_self_pair_iff (fuel : Nat) (E out : List Edge) (a : Int)
    (h : createTransClosure fuel E = some out) : (a, a) ∈ out ↔ (a, a) ∈ E := by
  obtain ⟨-, T, hT, hTm⟩ := createTransClosure_some fuel E out h
  constructor
  · intro hm
    rw [hT] at hm
    rcases List.mem_append.mp hm with h' | h'
    · exact h'
    · exact absurd rfl (hTm _ h')
  · intro hm
    rw [hT]
    exact List.mem_append_left _ hm

/-- Witness for C10 at the concrete input [(0,1),(1,2)]. -/
theorem createTransClosure_self_pair_iff_witness :
    (((0:Int),(0:Int)) ∈ [((0:Int),(1:Int)), ((1:Int),(2:Int)), ((0:Int),(2:Int))] ↔
      ((0:Int),(0:Int)) ∈ [((0:Int),(1:Int)), ((1:Int),(2:Int))]) :=
  createTransClosure_self_pair_iff 2 [((0:Int),(1:Int)), ((1:Int),(2:Int))]
    [((0:Int),(1:Int)), ((1:Int),(2:Int)), ((0:Int),(2:Int))] 0 (by decide)

/-- `goodState` on an incomplete state is the running invariant. -/
theorem goodState_run (R : List Edge) (s t : Int) (p : List Int) (c : Int) :
    goodState R s t ⟨p, c, false⟩ = goodRun R s ⟨p, c, false⟩ := rfl

/-- `goodState` on a completed state is the final invariant. -/
theorem goodState_done (R : List Edge) (s t : Int) (p : List Int) (c : Int) :
    goodState R s t ⟨p, c, true⟩ = goodDone R s t ⟨p, c, true⟩ := rfl

/-- On a self-loop-free closure list, one edge step preserves the walk
invariant. -/
theorem scanStep_good (R : List Edge) (s t : Int) (hsl : noSelfLoop R)
    (st : WalkState) (e : Edge) (he : e ∈ R) (h : goodState R s t st) :
    goodState R s t (scanStep t st e) := by
  obtain ⟨e1, e2⟩ := e
  obtain ⟨path, cur, cpl⟩ := st
  cases cpl
  case true =>
    unfold scanStep
    rw [if_pos rfl]
    exact h
  case false =>
    rw [goodState_run] at h
    obtain ⟨hhead, hchain, hnd⟩ := h
    dsimp only at hhead hchain hnd
    have hne : path ≠ [] := by
      intro hnil
      rw [hnil] at hhead
      exact Option.noConfusion hhead
    unfold scanStep
    rw [if_neg (by simp)]
    dsimp only
    by_cases htake : e1 = cur ∧ e2 ∉ path
    · rw [if_pos htake]
      have hcur : (cur, e2) ∈ R := htake.1 ▸ he
      have hne2 : cur ≠ e2 := htake.1 ▸ hsl (e1, e2) he
      have hchain2 : List.Chain' (relEdge R) ((path ++ [cur]) ++ [e2]) := by
        rw [List.chain'_append]
        refine ⟨hchain, List.chain'_singleton e2, ?_⟩
        intro x hx y hy
        rw [List.getLast?_concat] at hx
        simp only [List.head?_cons, Option.mem_def, Option.some.injEq] at hx hy
        rw [← hx, ← hy]
        exact hcur
      have hnd2 : ((path ++ [cur]) ++ [e2]).Nodup := by
        rw [List.nodup_append]
        refine ⟨hnd, List.nodup_singleton e2, ?_⟩
        intro x hx hx2
        simp only [List.mem_singleton] at hx2
        subst hx2
        rcases List.mem_append.mp hx with h' | h'
        · exact htake.2 h'
        · simp only [List.mem_singleton] at h'
          exact hne2 h'.symm
      have hhead2 : (path ++ [cur]).head? = some s := by
        rw [List.head?_append_of_ne_nil _ hne]
        exact hhead
      have hsh : path ++ [cur, e2] = (path ++ [cur]) ++ [e2] := by simp
      by_cases hdone : e2 = t
      · rw [if_pos hdone]
        subst hdone
        rw [goodState_done]
        unfold goodDone
        dsimp only
        rw [hsh]
        refine ⟨?_, hchain2, hnd2, List.getLast?_concat _⟩
        rw [List.head?_append_of_ne_nil _ (by simp : path ++ [cur] ≠ [])]
        exact hhead2
      · rw [if_neg hdone]
        rw [goodState_run]
        unfold goodRun
        dsimp only
        exact ⟨hhead2, hchain2, hnd2⟩
    · rw [if_neg htake]
      rw [goodState_run]
      exact ⟨hhead, hchain, hnd⟩

/-- The walk invariant is preserved by a scan over any sublist of the
closure edges. -/
theorem foldScan_good (R : List Edge) (s t : Int) (hsl : noSelfLoop R) :
    ∀ (l : List Edge), (∀ e ∈ l, e ∈ R) → ∀ st : WalkState,
      goodState R s t st → goodState R s t (l.foldl (scanStep t) st) := by
  intro l
  induction l with
  | nil => intro _ st h; exact h
  | cons e rest ih =>
    intro hsub st h
    rw [List.foldl_cons]
    exact ih (fun x hx => hsub x (List.mem_cons_of_mem e hx)) (scanStep t st e)
      (scanStep_good R s t hsl st e (hsub e (List.mem_cons_self e rest)) h)

/-- If the reconstruction loop returns a path from a state satisfying the
walk invariant, the path starts at `s`, ends at `t`, is chained by edges
of `R` and repeats no city. -/
theorem walkLoop_good (R : List Edge) (s t : Int) (hsl : noSelfLoop R) :
    ∀ (fuel : Nat) (st : WalkState) (p : List Int), goodState R s t st →
      walkLoop R t fuel st = some p →
      p.head? = some s ∧ List.Chain' (relEdge R) p ∧ p.Nodup ∧ p.getLast? = some t := by
  intro fuel
  induction fuel with
  | zero => intro st p _ h; exact absurd h (by simp [walkLoop])
  | succ fuel ih =>
    intro st p hg h
    unfold walkLoop at h
    split at h
    · rename_i hc
      have hp : p = st.path := ((Option.some.injEq _ _).mp h).symm
      unfold goodState at hg
      rw [if_pos hc] at hg
      obtain ⟨h1, h2, h3, h4⟩ := hg
      rw [hp]
      exact ⟨h1, h2, h3, h4⟩
    · exact ih (fullScan R t st) p
        (foldScan_good R s t hsl R (fun _ hx => hx) st hg) h

/-- C5 (counterexample): [(0,0)] is a fixed point of the closure
construction, and on it the query (0,0) returns the path [0,0], in which
the node 0 occurs twice. -/
theorem findPath_self_loop_repeats :
    findPath 1 [((0:Int),(0:Int))] 0 0 = some (FindResult.path [0, 0]) ∧
    ¬ ([0, 0] : List Int).Nodup ∧
    createTransClosure 1 [((0:Int),(0:Int))] = some [((0:Int),(0:Int))] := by decide

/-- C5 (amended): for every closure list `R` with no self-loop pair and
every query, if `findPath` returns a path `p`, then consecutive nodes of
`p` are joined by edges of `R`, no node occurs twice in `p`, `p` starts
at the start city and ends at the target city. -/
theorem findPath_sound (fuel : Nat) (R : List Edge) (s t : Int) (p : List Int)
    (hsl : noSelfLoop R) (h : findPath fuel R s t = some (FindResult.path p)) :
    p.head? = some s ∧ List.Chain' (relEdge R) p ∧ p.Nodup ∧ p.getLast? = some t := by
  unfold findPath at h
  split at h
  · rename_i hfound
    have hst : (s, t) ∈ R := (containsPair_iff R s t).mp hfound
    split at h
    · rename_i e hfind
      have he : e ∈ R := List.mem_of_find?_eq_some hfind
      have he1 : e.1 = s := by
        have := List.find?_some hfind
        simpa using this
      split at h
      · rename_i he2
        have hp : p = [s, t] := by
          have := (Option.some.injEq _ _).mp h
          exact (FindResult.path.injEq _ _ ▸ this).symm
        subst hp
        refine ⟨rfl, ?_, ?_, rfl⟩
        · exact List.chain'_cons.mpr ⟨hst, List.chain'_singleton t⟩
        · have hne : s ≠ t := by
            have := hsl e he
            rw [he1, he2] at this
            exact this
          simp [hne]
      · rename_i he2
        obtain ⟨q, hq, hqp⟩ := Option.map_eq_some'.mp h
        have hpq : q = p := by
          exact (FindResult.path.injEq _ _).mp hqp
        subst hpq
        refine walkLoop_good R s t hsl fuel ⟨[s], e.2, false⟩ q ?_ hq
        rw [goodState_run]
        unfold goodRun
        dsimp only
        have hne : s ≠ e.2 := by
          have := hsl e he
          rw [he1] at this
          exact this
        refine ⟨rfl, ?_, ?_⟩
        · have hmem : (s, e.2) ∈ R := by
            rw [← he1]
            exact he
          rw [List.singleton_append]
          exact List.chain'_cons.mpr ⟨hmem, List.chain'_singleton e.2⟩
        · rw [List.singleton_append]
          simp [hne]
    · rename_i hfind
      have := List.find?_eq_none.mp hfind (s, t) hst
      simp at this
  · exact absurd ((Option.some.injEq _ _).mp h) (by simp)

/-- Witness for C5 (amended) at the closure [(0,1),(1,2),(0,2)] with
query (0,2). -/
theorem findPath_sound_witness :
    ([0, 1, 2] : List Int).head? = some 0 ∧
    List.Chain' (relEdge [((0:Int),(1:Int)), ((1:Int),(2:Int)), ((0:Int),(2:Int))]) [0, 1, 2] ∧
    ([0, 1, 2] : List Int).Nodup ∧ ([0, 1, 2] : List Int).getLast? = some 2 :=
  findPath_sound 2 [((0:Int),(1:Int)), ((1:Int),(2:Int)), ((0:Int),(2:Int))] 0 2 [0, 1, 2]
    (by unfold noSelfLoop; decide) (by decide)

/-- C6: on the closure list [(0,2),(0,1)] (itself a fixed point of the
closure construction) with query (0,1), the edge (0,1) is present, so the
reachability check passes; but the greedy walk first takes (0,2), and
node 2 has no outgoing edge, so every iteration of the `while` loop
rescans without progress: `findPath` returns no result for any fuel —
the C loop runs forever instead of reporting a failure. -/
theorem findPath_stuck_diverges (fuel : Nat) :
    findPath fuel [((0:Int),(2:Int)), ((0:Int),(1:Int))] 0 1 = none := by
  have key : ∀ g : Nat,
      walkLoop [((0:Int),(2:Int)), ((0:Int),(1:Int))] 1 g ⟨[0], 2, false⟩ = none := by
    intro g
    induction g with
    | zero => rfl
    | succ g ih =>
      show walkLoop _ _ (g + 1) _ = none
      unfold walkLoop
      rw [if_neg (by decide)]
      have hscan : fullScan [((0:Int),(2:Int)), ((0:Int),(1:Int))] 1 ⟨[0], 2, false⟩ =
          ⟨[0], 2, false⟩ := by decide
      rw [hscan]
      exact ih
  show (walkLoop [((0:Int),(2:Int)), ((0:Int),(1:Int))] 1 fuel ⟨[0], 2, false⟩).map
    FindResult.path = none
  rw [key fuel]
  rfl

/-- C7: `findPath` reports "No Path Exists!" exactly when the pair
(start, target) is absent from the closure list, for any fuel: the
reachability decision is the single linear scan of lines 310-313. -/
theorem findPath_noPath_iff (fuel : Nat) (R : List Edge) (s t : Int) :
    findPath fuel R s t = some FindResult.noPath ↔ (s, t) ∉ R := by
  constructor
  · intro h hmem
    unfold findPath at h
    rw [if_pos ((containsPair_iff R s t).mpr hmem)] at h
    split at h
    · split at h
      · simp at h
      · simp [Option.map_eq_some'] at h
    · simp [Option.map_eq_some'] at h
  · intro hnot
    unfold findPath
    rw [if_neg (fun hc => hnot ((containsPair_iff R s t).mp hc))]

/-- One row of the scan accumulates exactly the filtered, mapped
column indices. -/
theorem foldl_row (A : Nat → Nat → Int) (i : Nat) :
    ∀ (cols : List Nat) (acc : List Edge),
      cols.foldl (fun acc2 j => if A i j = 1 then acc2 ++ [((i : Int), (j : Int))] else acc2)
          acc =
        acc ++ (cols.filter (fun j => A i j == 1)).map (fun (j : Nat) => ((i : Int), (j : Int))) := by
  intro cols
  induction cols with
  | nil => intro acc; simp
  | cons j rest ih =>
    intro acc
    rw [List.foldl_cons, List.filter_cons]
    by_cases h : A i j = 1
    · rw [if_pos h, ih]
      simp [h]
    · rw [if_neg h, ih]
      simp [h]

/-- The outer scan over rows concatenates the rows in order. -/
theorem foldl_rows (g : Nat → List Edge) :
    ∀ (l : List Nat) (acc : List Edge),
      l.foldl (fun a i => a ++ g i) acc = acc ++ l.flatMap g := by
  intro l
  induction l with
  | nil => intro acc; simp
  | cons i rest ih =>
    intro acc
    rw [List.foldl_cons, ih]
    simp

/-- The written pair sequence equals the row-major comprehension. -/
theorem rListWrites_eq_spec (A : Nat → Nat → Int) (N : Nat) :
    rListWrites A N = specRList A N := by
  unfold rListWrites specRList
  have hfun : (fun (acc : List Edge) (i : Nat) =>
      (List.range N).foldl
        (fun acc2 j => if A i j = 1 then acc2 ++ [((i : Int), (j : Int))] else acc2) acc) =
      fun (acc : List Edge) (i : Nat) =>
        acc ++ ((List.range N).filter (fun j => A i j == 1)).map
          (fun (j : Nat) => ((i : Int), (j : Int))) := by
    funext acc i
    exact foldl_row A i (List.range N) acc
  rw [hfun, foldl_rows]
  simp

/-- Count of occurrences of 1 distributes over row concatenation. -/
theorem count_one_flatMap (g : Nat → List Int) :
    ∀ l : List Nat, ((l.flatMap g).count 1) = (l.map (fun i => (g i).count 1)).sum := by
  intro l
  induction l with
  | nil => simp
  | cons i rest ih => simp [List.count_append, ih]

/-- Length distributes over row concatenation. -/
theorem length_flatMap_rows (g : Nat → List Edge) :
    ∀ l : List Nat, (l.flatMap g).length = (l.map (fun i => (g i).length)).sum := by
  intro l
  induction l with
  | nil => simp
  | cons i rest ih => simp [ih]

/-- Within one row, the number of cells holding a 1 is the number of
columns passing the filter. -/
theorem row_count (A : Nat → Nat → Int) (i : Nat) :
    ∀ cols : List Nat,
      ((cols.map (fun j => A i j)).count 1) = (cols.filter (fun j => A i j == 1)).length := by
  intro cols
  induction cols with
  | nil => rfl
  | cons j rest ih =>
    rw [List.map_cons, List.filter_cons]
    by_cases h : A i j = 1
    · simp [List.count_cons, h, ih]
    · simp [List.count_cons, h, ih]

/-- The number of pairs the scan writes is the number of 1-cells. -/
theorem rListWrites_length (A : Nat → Nat → Int) (N : Nat) :
    (rListWrites A N).length = onesCount A N := by
  rw [rListWrites_eq_spec]
  unfold specRList onesCount
  rw [length_flatMap_rows, count_one_flatMap]
  refine congrArg List.sum ?_
  refine List.map_congr_left ?_
  intro i _
  rw [List.length_map]
  exact (row_count A i (List.range N)).symm

/-- When the unchecked scan of a row ends within the capacity, the
bounds-checked scan of that row performs the same writes and stays
valid. -/
theorem checked_row (A : Nat → Nat → Int) (i : Nat) (cap : Nat) :
    ∀ (cols : List Nat) (acc : List Edge),
      (cols.foldl (fun acc2 j => if A i j = 1 then acc2 ++ [((i : Int), (j : Int))] else acc2)
          acc).length ≤ cap →
      cols.foldl
          (fun acc2 j => if A i j = 1 then pushPair cap acc2 ((i : Int), (j : Int)) else acc2)
          (some acc) =
        some (cols.foldl
          (fun acc2 j => if A i j = 1 then acc2 ++ [((i : Int), (j : Int))] else acc2) acc) := by
  intro cols
  induction cols with
  | nil => intro acc _; rfl
  | cons j rest ih =>
    intro acc hcap
    rw [List.foldl_cons] at hcap ⊢
    rw [List.foldl_cons]
    by_cases h : A i j = 1
    · rw [if_pos h] at hcap ⊢
      rw [if_pos h]
      have hge : acc.length + 1 ≤
          (rest.foldl
            (fun acc2 j => if A i j = 1 then acc2 ++ [((i : Int), (j : Int))] else acc2)
            (acc ++ [((i : Int), (j : Int))])).length := by
        rw [foldl_row]
        simp [List.length_append]
      have hlt : acc.length < cap := by omega
      have hpush : pushPair cap (some acc) ((i : Int), (j : Int)) =
          some (acc ++ [((i : Int), (j : Int))]) := by
        unfold pushPair
        show (if acc.length < cap then some (acc ++ [((i : Int), (j : Int))]) else none) =
          some (acc ++ [((i : Int), (j : Int))])
        rw [if_pos hlt]
      rw [hpush]
      exact ih (acc ++ [((i : Int), (j : Int))]) hcap
    · rw [if_neg h] at hcap ⊢
      rw [if_neg h]
      exact ih acc hcap

/-- The unchecked scan never shrinks the written sequence. -/
theorem plain_rows_le (A : Nat → Nat → Int) (N : Nat) :
    ∀ (rows : List Nat) (acc : List Edge),
      acc.length ≤
        (rows.foldl
          (fun a i =>
            (List.range N).foldl
              (fun acc2 j => if A i j = 1 then acc2 ++ [((i : Int), (j : Int))] else acc2) a)
          acc).length := by
  intro rows
  induction rows with
  | nil => intro acc; exact Nat.le_refl _
  | cons i rest ih =>
    intro acc
    rw [List.foldl_cons]
    refine Nat.le_trans ?_ (ih _)
    rw [foldl_row]
    simp

/-- When the unchecked whole-table scan ends within the capacity, the
bounds-checked scan performs the same writes and stays valid. -/
theorem checked_rows (A : Nat → Nat → Int) (N : Nat) (cap : Nat) :
    ∀ (rows : List Nat) (acc : List Edge),
      (rows.foldl
          (fun a i =>
            (List.range N).foldl
              (fun acc2 j => if A i j = 1 then acc2 ++ [((i : Int), (j : Int))] else acc2) a)
          acc).length ≤ cap →
      rows.foldl
          (fun a i =>
            (List.range N).foldl
              (fun acc2 j =>
                if A i j = 1 then pushPair cap acc2 ((i : Int), (j : Int)) else acc2) a)
          (some acc) =
        some (rows.foldl
          (fun a i =>
            (List.range N).foldl
              (fun acc2 j => if A i j = 1 then acc2 ++ [((i : Int), (j : Int))] else acc2) a)
          acc) := by
  intro rows
  induction rows with
  | nil => intro acc _; rfl
  | cons i rest ih =>
    intro acc hcap
    rw [List.foldl_cons] at hcap ⊢
    rw [List.foldl_cons]
    have hinner : ((List.range N).foldl
        (fun acc2 j => if A i j = 1 then acc2 ++ [((i : Int), (j : Int))] else acc2)
        acc).length ≤ cap :=
      Nat.le_trans (plain_rows_le A N rest _) hcap
    rw [checked_row A i cap (List.range N) acc hinner]
    exact ih _ hcap

/-- Within the capacity of the allocated buffer, `createRList` succeeds
and returns exactly the written pair sequence. -/
theorem createRList_some (A : Nat → Nat → Int) (N : Nat)
    (hcap : onesCount A N ≤ N * N - N) :
    createRList A N = some (rListWrites A N) := by
  unfold createRList rListWrites
  apply checked_rows
  have hlen := rListWrites_length A N
  unfold rListWrites at hlen
  rw [hlen]
  exact hcap

/-- C9 (counterexample): the all-ones 2×2 matrix is a square {0,1}
matrix with 4 one-cells, but the buffer allocated on line 227 holds
`2*(N*N-N)` = 4 ints — room for only 2 pairs — so the scan writes past
the end of the allocation (undefined behaviour) instead of returning
the 4 pairs with their count as the claim promises. -/
theorem createRList_all_ones_overflow :
    createRList (fun _ _ => 1) 2 = none ∧ onesCount (fun _ _ => 1) 2 = 4 ∧
      2 * 2 - 2 < onesCount (fun _ _ => 1) 2 := by decide

/-- C9 (amended): for every square `N`×`N` matrix over {0,1} with at
most `N*N - N` one-cells — so the buffer pre-allocated for `2*(N*N-N)`
ints is never overrun — `createRList` succeeds and returns exactly the
pairs (i,j) with `A i j = 1` in row-major scan order, and the result
size equals the count of 1-cells. -/
theorem createRList_correct (A : Nat → Nat → Int) (N : Nat)
    (_h01 : ∀ i, i < N → ∀ j, j < N → A i j = 0 ∨ A i j = 1)
    (hcap : onesCount A N ≤ N * N - N) :
    createRList A N = some (specRList A N) ∧ (specRList A N).length = onesCount A N := by
  constructor
  · rw [createRList_some A N hcap, rListWrites_eq_spec]
  · rw [← rListWrites_eq_spec, rListWrites_length]

/-- Witness for C9 (amended) at a concrete 3×3 matrix with 2 one-cells
(capacity 6 pairs). -/
theorem createRList_correct_witness :
    createRList (fun i j => if i = 0 ∧ j ≠ 0 then 1 else 0) 3 =
        some (specRList (fun i j => if i = 0 ∧ j ≠ 0 then 1 else 0) 3) ∧
      (specRList (fun i j => if i = 0 ∧ j ≠ 0 then 1 else 0) 3).length =
        onesCount (fun i j => if i = 0 ∧ j ≠ 0 then 1 else 0) 3 :=
  createRList_correct (fun i j => if i = 0 ∧ j ≠ 0 then 1 else 0) 3 (by decide) (by decide)
